import Mathlib

/-!
Verification of the MAZE_GAME server core (`src/server.js`).

This file gives a shallow embedding, in Lean 4, of the server core of the
room-based multiplayer maze-race game:

* the maze generator `generateMaze` (randomized depth-first backtracker),
* the room registry (`generateRoomCode`, `createRoom`, `joinRoom`),
* the round lifecycle (`startRound`, the `playerWon` handler,
  `requestNextRound`, `requestPlayAgain`), and
* the per-room session actions (`playerMove`, `removePlayer`).

Conventions of the embedding:

* JavaScript numbers holding integers (counters, timestamps in ms,
  `parseInt` results) are modelled as `Int`; the derived quantity
  `finishTime = (Date.now() - startTime) / 1000`, a float holding an exact
  multiple of `1/1000`, is modelled as `ℚ` (for realistic timestamps the
  double value and its ordering coincide with the rational one).
* `Date.now()` and `Math.random()` are modelled as explicit inputs: handlers
  that read the clock take a `now : Int` parameter, the maze generator takes
  an oracle `perm : Nat → List (Int × Int)` giving the (implementation
  defined) result of `directions.sort(() => Math.random() - 0.5)` at each
  loop iteration, and the room-code generator takes a draw oracle
  `r : Nat → Fin 32` giving `Math.floor(Math.random() * 32)` for each draw.
* The 2D maze array `maze[y][x]` is carried during generation as a total
  function `Int → Int → Nat` (value `1` = wall, `0` = path; every array
  access in the source is guarded by a bounds check, so the out-of-range
  values of the function are never consulted), and materialised at the end
  into the `height × width` row list the source returns.
* A JavaScript array of mutable objects is modelled as a `List` of records;
  mutation of the object found by `Array.prototype.find` (resp. chosen from
  a sorted copy) is modelled as `List.set` at the first matching index
  (resp. at the winning index).  `Array.prototype.sort`, stable by the
  ECMAScript specification, is modelled by the stable `List.mergeSort` on
  the list of indices, which applies the identical stable permutation.
* Fields a player object only acquires later (`x`, `y`, `lastFinishTime`,
  `finishTime`, absent — `undefined` — on a freshly created player) are
  modelled as `Option` fields defaulting to `none`; the `finished` field,
  read with falsy semantics before first assignment, is a `Bool` defaulting
  to `false`.
-/

namespace MazeGame

/-! ## Maze generator (`generateMaze`, src/server.js lines 33–79) -/

/-- The four candidate carving directions, as `(dx, dy)` pairs:
up, down, left, right — the initial contents of the source's
`directions` array. -/
def dirs : List (Int × Int) := [(0, -2), (0, 2), (-2, 0), (2, 0)]

/-- The maze array during generation: `m y x` is `maze[y][x]`
(`1` = wall, `0` = path). -/
abbrev Maze := Int → Int → Nat

/-- The assignment carving position `(x, y)` to path: `maze[y][x] = 0`. -/
def setPath (m : Maze) (y x : Int) : Maze :=
  fun y' x' => if y' = y ∧ x' = x then 0 else m y' x'

/-- One entry of the source's `validNeighbors` array:
the object `{ nx, ny, dx: dir.x / 2, dy: dir.y / 2 }`. -/
structure Nb where
  nx : Int
  ny : Int
  dx : Int
  dy : Int
deriving Repr, DecidableEq

/-- The `validNeighbors` computed for the current cell `(cx, cy)` from the
(shuffled) direction list `ds`: keep the directions whose target is strictly
inside the border and still a wall, recording the target and the half-step. -/
def validNeighbors (w h : Int) (m : Maze) (cx cy : Int)
    (ds : List (Int × Int)) : List Nb :=
  ds.filterMap fun d =>
    if 0 < cx + d.1 ∧ cx + d.1 < w - 1 ∧ 0 < cy + d.2 ∧ cy + d.2 < h - 1 ∧
        m (cy + d.2) (cx + d.1) = 1 then
      some ⟨cx + d.1, cy + d.2, d.1 / 2, d.2 / 2⟩
    else none

/-- The interior positions of the grid (both coordinates strictly between
the borders), the region all bounds checks of the generator confine it to. -/
def region (w h : Int) : Finset (Int × Int) :=
  Finset.Ioo 0 (w - 1) ×ˢ Finset.Ioo 0 (h - 1)

/-- Number of interior positions still walls — the termination measure
component of the backtracking loop. -/
def wallCount (w h : Int) (m : Maze) : Nat :=
  ((region w h).filter fun p => m p.2 p.1 = 1).card

/-- The `while (stack.length > 0)` loop of `generateMaze`.  The stack is a
list whose head is the top (`stack[stack.length - 1]` in the source); `n`
counts loop iterations and indexes the shuffle oracle `perm`.  Each
iteration either carves the first shuffled valid neighbor and pushes it, or
pops the stack. -/
def mazeLoop (w h : Int) (perm : Nat → List (Int × Int)) (m : Maze)
    (stack : List (Int × Int)) (n : Nat) : Maze :=
  match stack with
  | [] => m
  | c :: rest =>
    match hv : validNeighbors w h m c.1 c.2 (perm n) with
    | [] => mazeLoop w h perm m rest (n + 1)
    | v :: _ =>
      let m2 := setPath (setPath m v.ny v.nx) (c.2 + v.dy) (c.1 + v.dx)
      mazeLoop w h perm m2 ((v.nx, v.ny) :: c :: rest) (n + 1)
termination_by 2 * wallCount w h m + stack.length
decreasing_by
  · simp only [List.length_cons]
    omega
  · simp only [List.length_cons]
    have hmem : v ∈ validNeighbors w h m c.1 c.2 (perm n) := by
      rw [hv]; exact List.mem_cons_self _ _
    unfold validNeighbors at hmem
    rw [List.mem_filterMap] at hmem
    obtain ⟨d, -, hf⟩ := hmem
    have hcond : 0 < v.nx ∧ v.nx < w - 1 ∧ 0 < v.ny ∧ v.ny < h - 1 ∧
        m v.ny v.nx = 1 := by
      split at hf
      · rename_i hcnd
        cases hf
        exact hcnd
      · cases hf
    obtain ⟨h1, h2, h3, h4, h5⟩ := hcond
    have hlt : wallCount w h (setPath m v.ny v.nx) < wallCount w h m := by
      apply Finset.card_lt_card
      constructor
      · intro p hp
        simp only [Finset.mem_filter] at hp ⊢
        refine ⟨hp.1, ?_⟩
        have hp2 := hp.2
        unfold setPath at hp2
        split at hp2
        · exact absurd hp2 (by omega)
        · exact hp2
      · intro hsub
        have hx2 : (v.nx, v.ny) ∈ (region w h).filter fun p => m p.2 p.1 = 1 := by
          simp only [Finset.mem_filter, region, Finset.mem_product,
            Finset.mem_Ioo]
          exact ⟨⟨⟨h1, h2⟩, ⟨h3, h4⟩⟩, h5⟩
        have hin := hsub hx2
        simp only [Finset.mem_filter, setPath] at hin
        have hp2 := hin.2
        simp at hp2
    have hle : wallCount w h
        (setPath (setPath m v.ny v.nx) (c.2 + v.dy) (c.1 + v.dx)) ≤
        wallCount w h (setPath m v.ny v.nx) := by
      apply Finset.card_le_card
      intro p hp
      simp only [Finset.mem_filter] at hp ⊢
      refine ⟨hp.1, ?_⟩
      have hp2 := hp.2
      unfold setPath at hp2
      split at hp2
      · exact absurd hp2 (by omega)
      · exact hp2
    omega

/-- The maze produced by `generateMaze(width, height)` as a function:
initialise all walls, carve the start `(1,1)`, run the backtracking loop
from stack `[(1,1)]`, then forcibly carve the exit `maze[h-2][w-2]`. -/
def mazeFun (w h : Int) (perm : Nat → List (Int × Int)) : Maze :=
  setPath (mazeLoop w h perm (setPath (fun _ _ => 1) 1 1) [(1, 1)] 0)
    (h - 2) (w - 2)

/-- The grid `generateMaze` returns: `height` rows of `width` cells. -/
def generateMaze (w h : Int) (perm : Nat → List (Int × Int)) :
    List (List Nat) :=
  (List.range h.toNat).map fun y : Nat =>
    (List.range w.toNat).map fun x : Nat =>
      mazeFun w h perm (y : Int) (x : Int)

/-! ### Vocabulary for the maze claims -/

/-- The cell positions of the half-resolution grid the backtracker walks:
odd coordinates, strictly inside the border (the bounds the generator's
neighbor check enforces). -/
def isCell (w h : Int) (p : Int × Int) : Prop :=
  Odd p.1 ∧ Odd p.2 ∧ 0 < p.1 ∧ p.1 < w - 1 ∧ 0 < p.2 ∧ p.2 < h - 1

/-- Two positions two apart along an axis: `q = p + d` for one of the four
carving directions. -/
def cellAdj (p q : Int × Int) : Prop :=
  ∃ d ∈ dirs, q = (p.1 + d.1, p.2 + d.2)

/-- Grid adjacency: `q` is one of the four unit neighbors of `p`. -/
def adjacent (p q : Int × Int) : Prop :=
  q = (p.1 + 1, p.2) ∨ q = (p.1 - 1, p.2) ∨
  q = (p.1, p.2 + 1) ∨ q = (p.1, p.2 - 1)

/-- Position `(x, y)` is carved to path in maze `m`. -/
def isPath (m : Maze) (p : Int × Int) : Prop := m p.2 p.1 = 0

/-- A carved connection one cell step long: `q` is a cell-step neighbor of
`p` and both `q` and the midpoint between `p` and `q` are path. -/
def linked (m : Maze) (p q : Int × Int) : Prop :=
  cellAdj p q ∧ isPath m q ∧ isPath m ((p.1 + q.1) / 2, (p.2 + q.2) / 2)

/-- Reachability from `p` to `q` along carved cell steps. -/
def LinkReach (m : Maze) : (Int × Int) → (Int × Int) → Prop :=
  Relation.ReflTransGen (linked m)

/-- Reachability along the cell grid itself (ignoring carving): the graph
the backtracker explores. -/
def CellReach (w h : Int) : (Int × Int) → (Int × Int) → Prop :=
  Relation.ReflTransGen fun p q => isCell w h q ∧ cellAdj p q

/-- A path of adjacent path cells from `p` to `q` in maze `m` (each step
moves to an adjacent position that is path). -/
def PathConn (m : Maze) : (Int × Int) → (Int × Int) → Prop :=
  Relation.ReflTransGen fun p q => adjacent p q ∧ isPath m q

/-- Maze `m'` has every carve `m` has (carving only ever adds path
cells). -/
def carvedLE (m m' : Maze) : Prop := ∀ y x, m y x = 0 → m' y x = 0

/-- The invariant of the backtracking loop: maze values are boolean, the
start is carved, stack entries are carved cells, every carved cell off the
stack has all its in-grid cell neighbors carved, and every carved cell is
link-reachable from the start. -/
structure LoopInv (w h : Int) (m : Maze) (stack : List (Int × Int)) : Prop where
  bool : ∀ y x, m y x = 0 ∨ m y x = 1
  start : m 1 1 = 0
  stackCells : ∀ p ∈ stack, isCell w h p ∧ isPath m p
  closed : ∀ p, isCell w h p → isPath m p → p ∉ stack →
    ∀ q, isCell w h q → cellAdj p q → isPath m q
  reach : ∀ p, isCell w h p → isPath m p → LinkReach m (1, 1) p

/-! ## Server data model (src/server.js) -/

/-- Room status strings. -/
inductive Status
  | waiting
  | playing
  | round_over
  | game_over
deriving DecidableEq, Repr

/-- A player object.  `x`, `y`, `lastFinishTime` and `finishTime` are fields
the source only assigns later, so they start absent (`none`); `finished` is
read with falsy semantics before its first assignment, hence `false`. -/
structure Player where
  id : String
  name : String
  score : Nat
  color : String
  x : Option Int := none
  y : Option Int := none
  finished : Bool := false
  lastFinishTime : Option ℚ := none
  finishTime : Option ℚ := none
deriving DecidableEq, Repr

instance : Inhabited Player := ⟨{ id := "", name := "", score := 0, color := "" }⟩

/-- A room object.  `maze` and `startTime` start absent. -/
structure Room where
  id : String
  players : List Player
  maxPlayers : Int
  totalRounds : Int
  currentRound : Int
  status : Status
  maze : Option (List (List Nat)) := none
  startTime : Option Int := none
deriving Repr

/-- The 10-color palette of `joinRoom`. -/
def colors : List String :=
  ["#FF4136", "#2ECC40", "#0074D9", "#FFDC00", "#B10DC9",
   "#FF851B", "#39CCCC", "#F012BE", "#01FF70", "#AAAAAA"]

/-- The room-code alphabet
`'ABCDEFGHJKLMNPQRSTUVWXYZ23456789'` of `generateRoomCode`. -/
def alphabet : List Char :=
  ['A', 'B', 'C', 'D', 'E', 'F', 'G', 'H', 'J', 'K', 'L', 'M', 'N', 'P',
   'Q', 'R', 'S', 'T', 'U', 'V', 'W', 'X', 'Y', 'Z', '2', '3', '4', '5',
   '6', '7', '8', '9']

/-- One 4-character draw of `generateRoomCode`, the oracle `r` supplying
`Math.floor(Math.random() * characters.length)` for draw index `k + i`. -/
def drawCode (r : Nat → Fin 32) (k : Nat) : String :=
  String.mk ((List.range 4).map fun i => alphabet.getD (r (k + i)) 'A')

/-- The code generator `generateRoomCode`: draw a 4-character code; if a
live room already has
it, retry (the source recurses unboundedly; the embedding adds `fuel` and
returns `none` on exhaustion, which the source would realise as
non-termination).  `rooms` is the registry, an association list
code ↦ room. -/
def generateRoomCode (rooms : List (String × Room)) (r : Nat → Fin 32) :
    Nat → Nat → Option String
  | 0, _ => none
  | fuel + 1, k =>
    let result := drawCode r k
    if (rooms.lookup result).isSome then
      generateRoomCode rooms r fuel (k + 4)
    else
      some result

/-- The room record the `createRoom` handler installs: host as sole player
with the first palette color, status `waiting`, round 1, no maze yet. -/
def initRoom (code socketId playerName : String)
    (maxPlayers totalRounds : Int) : Room :=
  { id := code
    players := [{ id := socketId, name := playerName, score := 0,
                  color := "#FF4136" }]
    maxPlayers := maxPlayers
    totalRounds := totalRounds
    currentRound := 1
    status := .waiting
    maze := none }

/-- The `createRoom` handler over the registry: generate a fresh code and
install the initial room (numeric payload fields already parsed to `Int`). -/
def createRoom (rooms : List (String × Room)) (r : Nat → Fin 32) (fuel : Nat)
    (socketId playerName : String) (maxPlayers totalRounds : Int) :
    List (String × Room) × Option String :=
  match generateRoomCode rooms r fuel 0 with
  | none => (rooms, none)
  | some code =>
    ((code, initRoom code socketId playerName maxPlayers totalRounds) :: rooms,
      some code)

/-- Reset of one player done by `startRound`: to the start cell, not
finished, `finishTime` 0. -/
def resetPlayer (p : Player) : Player :=
  { p with x := some 1, y := some 1, finished := false, finishTime := some 0 }

/-- The round starter `startRound(roomCode)`: status `playing`, fresh
21×21 maze, record the
round start time, reset every player. -/
def startRound (room : Room) (perm : Nat → List (Int × Int)) (now : Int) :
    Room :=
  { room with
    status := .playing
    maze := some (generateMaze 21 21 perm)
    startTime := some now
    players := room.players.map resetPlayer }

/-- The error strings `joinRoom` can emit. -/
inductive JoinError
  | roomNotFound
  | gameInProgress
  | roomFull
deriving DecidableEq, Repr

/-- The player object `joinRoom` appends: next cyclic palette color for a
room that currently has `k` players. -/
def newPlayer (k : Nat) (socketId playerName : String) : Player :=
  { id := socketId, name := playerName, score := 0,
    color := colors.getD (k % colors.length) "#FF4136" }

/-- The source's `room.players.push(newPlayer)`. -/
def pushPlayer (room : Room) (socketId playerName : String) : Room :=
  { room with
    players := room.players ++
      [newPlayer room.players.length socketId playerName] }

/-- The `joinRoom` handler on a looked-up room (the `RoomNotFound` case is
the registry lookup failing before this runs).  Checks, in source order:
status, then capacity; on success appends the player with the cyclic
palette color and auto-starts the round when the room becomes full. -/
def joinRoom (room : Room) (socketId playerName : String)
    (perm : Nat → List (Int × Int)) (now : Int) : Room × Option JoinError :=
  if room.status ≠ .waiting then
    (room, some .gameInProgress)
  else if (room.players.length : Int) ≥ room.maxPlayers then
    (room, some .roomFull)
  else if ((pushPlayer room socketId playerName).players.length : Int) =
      (pushPlayer room socketId playerName).maxPlayers then
    (startRound (pushPlayer room socketId playerName) perm now, none)
  else
    (pushPlayer room socketId playerName, none)

/-- The `playerMove` handler: drop unless `playing`; otherwise store the
client-reported position on the sender's player object (mutation of the
object `find` returns = `List.set` at the first matching index; when no
player matches, `findIdx` is the length and `set` is the identity, matching
the source's `if (player)` guard). -/
def playerMove (room : Room) (socketId : String) (px py : Int) : Room :=
  if room.status ≠ .playing then room
  else
    { room with
      players := room.players.set
        (room.players.findIdx fun p => p.id = socketId)
        { room.players.getD (room.players.findIdx fun p => p.id = socketId)
            default with x := some px, y := some py } }

/-- The finish time `(Date.now() - room.startTime) / 1000` in seconds. -/
def finishSeconds (now : Int) (startTime : Option Int) : ℚ :=
  ((now - startTime.getD 0 : Int) : ℚ) / 1000

/-- Mark the first player whose id matches as finished with the given time
(the mutation of the object `find` returned). -/
def markFinished (ps : List Player) (socketId : String) (t : ℚ) :
    List Player :=
  ps.set (ps.findIdx fun p => p.id = socketId)
    { ps.getD (ps.findIdx fun p => p.id = socketId) default with
      finished := true, lastFinishTime := some t }

/-- The comparator `(a, b) => a.lastFinishTime - b.lastFinishTime` read on
indices into the player list (comparing absent times as 0; in the sorting
branch every player has finished, so every time is present). -/
def timeKey (ps : List Player) (i : Nat) : ℚ :=
  ((ps.getD i default).lastFinishTime).getD 0

/-- The stable sort `[...room.players].sort((a,b) => a.lastFinishTime -
b.lastFinishTime)` as the stable permutation it applies to positions:
`mergeSort` of the indices by finish time. -/
def sortedIdx (ps : List Player) : List Nat :=
  (List.range ps.length).mergeSort fun i j =>
    decide (timeKey ps i ≤ timeKey ps j)

/-- The majority threshold `Math.ceil(room.totalRounds / 2)`. -/
def winsNeeded (totalRounds : Int) : Int := ⌈(totalRounds : ℚ) / 2⌉

/-- The `roundResult` payload the all-finished branch broadcasts. -/
structure RoundResult where
  winner : Player
  players : List Player
  currentRound : Int
  totalRounds : Int
  isGrandWinner : Bool
deriving Repr

/-- The player list after `playerWon` records the sender's finish:
the sender marked finished with elapsed time
`(Date.now() - room.startTime) / 1000`. -/
def finishedPlayers (room : Room) (socketId : String) (now : Int) :
    List Player :=
  markFinished room.players socketId (finishSeconds now room.startTime)

/-- The position of the round winner: the index reaching the front of the
stable sort by finish time (`sort(...)[0]`). -/
def roundWinnerIdx (ps : List Player) : Nat := (sortedIdx ps).headD 0

/-- The round winner object as broadcast: the front of the sort, after its
`score += 1`. -/
def roundWinner (ps : List Player) : Player :=
  { ps.getD (roundWinnerIdx ps) default with
    score := (ps.getD (roundWinnerIdx ps) default).score + 1 }

/-- The player list after `roundWinner.score += 1` (mutation of the shared
object seen through `room.players`). -/
def awardWinner (ps : List Player) : List Player :=
  ps.set (roundWinnerIdx ps) (roundWinner ps)

/-- The flag `isGrandWinner = roundWinner.score >= winsNeeded ||
currentRound === totalRounds`. -/
def grandFlag (totalRounds currentRound : Int) (winner : Player) : Bool :=
  decide ((winner.score : Int) ≥ winsNeeded totalRounds ∨
    currentRound = totalRounds)

/-- The `playerWon` handler (`recordFinish`): drop unless `playing` and the
sender's player exists and is not yet finished; mark the finish; if all
players have now finished, bump the round winner's score (head of the
stable sort by finish time), compute the grand-winner flag, broadcast the
round result, and set the status to `round_over` — or `game_over` when the
flag holds. -/
def playerWon (room : Room) (socketId : String) (now : Int) :
    Room × Option RoundResult :=
  if room.status ≠ .playing then (room, none)
  else if (room.players.findIdx fun p => p.id = socketId) <
      room.players.length ∧
      ¬(room.players.getD (room.players.findIdx fun p => p.id = socketId)
          default).finished then
    if (finishedPlayers room socketId now).all (·.finished) then
      ({ room with
          players := awardWinner (finishedPlayers room socketId now)
          status :=
            if grandFlag room.totalRounds room.currentRound
                (roundWinner (finishedPlayers room socketId now)) then
              .game_over
            else
              .round_over },
        some { winner := roundWinner (finishedPlayers room socketId now)
               players := awardWinner (finishedPlayers room socketId now)
               currentRound := room.currentRound
               totalRounds := room.totalRounds
               isGrandWinner := grandFlag room.totalRounds room.currentRound
                 (roundWinner (finishedPlayers room socketId now)) })
    else
      ({ room with players := finishedPlayers room socketId now }, none)
  else (room, none)

/-- The first index of a player attaining the minimum finish time — the
winner the specification describes (minimum `lastFinishTime`, exact ties
broken in favor of the earliest position in the player list). -/
def firstMinIdx (ps : List Player) : Nat :=
  (List.range ps.length).findIdx fun i =>
    decide (∀ j < ps.length, timeKey ps i ≤ timeKey ps j)

/-- The handler `requestNextRound`: only from `round_over` and only before
the final
round; bump the round counter and start the next round. -/
def requestNextRound (room : Room) (perm : Nat → List (Int × Int))
    (now : Int) : Room :=
  if room.status ≠ .round_over then room
  else if room.currentRound < room.totalRounds then
    startRound { room with currentRound := room.currentRound + 1 } perm now
  else room

/-- The handler `requestPlayAgain`: reset round counter and scores, back
to `waiting`
(the source checks only that the room exists — there is no status guard). -/
def requestPlayAgain (room : Room) : Room :=
  { room with
    currentRound := 1
    players := room.players.map fun p => { p with score := 0 }
    status := .waiting }

/-- The `disconnect` handler's per-room effect: remove the first player
with the leaving socket's id (registry-level deletion of an emptied room is
outside the per-room state). -/
def removePlayer (room : Room) (socketId : String) : Room :=
  { room with players := room.players.eraseP fun p => p.id = socketId }

/-- One inbound client action on a given room, carrying the payload and the
ambient inputs (clock, shuffle oracle) the handler reads. -/
inductive Action
  | join (socketId playerName : String)
      (perm : Nat → List (Int × Int)) (now : Int)
  | move (socketId : String) (px py : Int)
  | won (socketId : String) (now : Int)
  | nextRound (perm : Nat → List (Int × Int)) (now : Int)
  | playAgain
  | leave (socketId : String)

/-- The per-room effect of dispatching one client action. -/
def step (room : Room) : Action → Room
  | .join sid name perm now => (joinRoom room sid name perm now).1
  | .move sid px py => playerMove room sid px py
  | .won sid now => (playerWon room sid now).1
  | .nextRound perm now => requestNextRound room perm now
  | .playAgain => requestPlayAgain room
  | .leave sid => removePlayer room sid

/-- One join request, with the ambient inputs its handler reads. -/
structure JoinReq where
  sid : String
  name : String
  perm : Nat → List (Int × Int)
  now : Int

/-- Apply a sequence of join requests to a room (the room states reachable
from creation by `createRoom` and `joinRoom` alone). -/
def applyJoins (room : Room) (js : List JoinReq) : Room :=
  js.foldl (fun r j => (joinRoom r j.sid j.name j.perm j.now).1) room

/-- Bump a score by one (the round winner's increment). -/
def bumpScore (p : Player) : Player := { p with score := p.score + 1 }

/-- A concrete three-player room mid-round, used to instantiate theorems:
P1 finished at 5.0 s, P3 finished at 3.2 s, P2 still racing (and about to
finish at exactly 3.2 s, tying P3). -/
def sampleRoom : Room :=
  { id := "AAAA"
    players := [
      { id := "s1", name := "P1", score := 0, color := "#FF4136",
        x := some 1, y := some 1, finished := true,
        lastFinishTime := some 5, finishTime := some 0 },
      { id := "s2", name := "P2", score := 0, color := "#2ECC40",
        x := some 1, y := some 1, finished := false,
        lastFinishTime := none, finishTime := some 0 },
      { id := "s3", name := "P3", score := 0, color := "#0074D9",
        x := some 1, y := some 1, finished := true,
        lastFinishTime := some (16 / 5), finishTime := some 0 }]
    maxPlayers := 3
    totalRounds := 5
    currentRound := 2
    status := .playing
    maze := none
    startTime := some 0 }

/-! ## Theorems -/

/-- C10: `startRound` modifies only each player's position, `finished` flag
and `finishTime` field, and the room's `status`, `maze` and `startTime`;
player identity, name, score, color and the previously recorded
`lastFinishTime` — hence scores and last finish times across rounds — and
the room's id, capacity, round counters are all unchanged. -/
theorem startRound_frame (room : Room) (perm : Nat → List (Int × Int))
    (now : Int) :
    (startRound room perm now).id = room.id ∧
    (startRound room perm now).maxPlayers = room.maxPlayers ∧
    (startRound room perm now).totalRounds = room.totalRounds ∧
    (startRound room perm now).currentRound = room.currentRound ∧
    (startRound room perm now).status = .playing ∧
    (startRound room perm now).maze = some (generateMaze 21 21 perm) ∧
    (startRound room perm now).startTime = some now ∧
    (startRound room perm now).players.length = room.players.length ∧
    (∀ i,
      ((startRound room perm now).players.getD i default).id =
        (room.players.getD i default).id ∧
      ((startRound room perm now).players.getD i default).name =
        (room.players.getD i default).name ∧
      ((startRound room perm now).players.getD i default).score =
        (room.players.getD i default).score ∧
      ((startRound room perm now).players.getD i default).color =
        (room.players.getD i default).color ∧
      ((startRound room perm now).players.getD i default).lastFinishTime =
        (room.players.getD i default).lastFinishTime) ∧
    ∀ i < room.players.length,
      ((startRound room perm now).players.getD i default).x = some 1 ∧
      ((startRound room perm now).players.getD i default).y = some 1 ∧
      ((startRound room perm now).players.getD i default).finished = false ∧
      ((startRound room perm now).players.getD i default).finishTime =
        some 0 := by
  unfold startRound
  refine ⟨rfl, rfl, rfl, rfl, rfl, rfl, rfl, by simp, ?_, ?_⟩
  · intro i
    simp only [List.getD_eq_getElem?_getD, List.getElem?_map]
    cases hp : room.players[i]? <;> simp [resetPlayer]
  · intro i hi
    simp only [List.getD_eq_getElem?_getD, List.getElem?_map]
    rw [List.getElem?_eq_getElem hi]
    simp [resetPlayer]

/-- C6: a successful `joinRoom` that brings the player count up to exactly
`maxPlayers` auto-starts the round: no error, status `playing`, a non-null
maze, the start time recorded, every player at position `(1, 1)`. -/
theorem joinRoom_autostart (room : Room) (sid pname : String)
    (perm : Nat → List (Int × Int)) (now : Int)
    (hw : room.status = .waiting)
    (hfull : (room.players.length : Int) + 1 = room.maxPlayers) :
    (joinRoom room sid pname perm now).2 = none ∧
    (joinRoom room sid pname perm now).1.status = .playing ∧
    (joinRoom room sid pname perm now).1.maze =
      some (generateMaze 21 21 perm) ∧
    (joinRoom room sid pname perm now).1.maze ≠ none ∧
    (joinRoom room sid pname perm now).1.startTime = some now ∧
    ∀ p ∈ (joinRoom room sid pname perm now).1.players,
      p.x = some 1 ∧ p.y = some 1 := by
  have hne : ¬room.status ≠ Status.waiting := by simp [hw]
  have hcap : ¬((room.players.length : Int) ≥ room.maxPlayers) := by omega
  unfold joinRoom
  rw [if_neg hne, if_neg hcap,
    if_pos (by simp only [pushPlayer, List.length_append, List.length_cons,
      List.length_nil]; omega)]
  refine ⟨rfl, rfl, rfl, by simp [startRound], rfl, ?_⟩
  intro p hp
  simp only [startRound, List.mem_map] at hp
  obtain ⟨q, -, rfl⟩ := hp
  exact ⟨rfl, rfl⟩

/-- C5 (amended): `joinRoom` on a full room **whose status is `waiting`**
yields the `RoomFull` error and leaves the room unchanged.  (On a full room
that is not `waiting` the status check fires first and the error is
`GameInProgress` instead — see the counterexample.) -/
theorem joinRoom_full_waiting (room : Room) (sid pname : String)
    (perm : Nat → List (Int × Int)) (now : Int)
    (hw : room.status = .waiting)
    (hfull : (room.players.length : Int) = room.maxPlayers) :
    joinRoom room sid pname perm now = (room, some .roomFull) := by
  have hne : ¬room.status ≠ Status.waiting := by simp [hw]
  unfold joinRoom
  rw [if_neg hne, if_pos (by omega)]

/-- C5 counterexample: a full room that has already auto-started (status
`playing`) makes `joinRoom` yield `GameInProgress`, not the `RoomFull`
error the claim requires for every full room. -/
theorem joinRoom_full_playing_not_roomFull :
    (joinRoom
      { id := "AAAA"
        players := [{ id := "s1", name := "Alice", score := 0,
                      color := "#FF4136" },
                    { id := "s2", name := "Bob", score := 0,
                      color := "#2ECC40" }]
        maxPlayers := 2
        totalRounds := 3
        currentRound := 1
        status := .playing } "s3" "Carol" (fun _ => dirs) 0).2 =
      some JoinError.gameInProgress ∧
    some JoinError.gameInProgress ≠ some JoinError.roomFull := by
  constructor
  · rfl
  · decide

/-- C4: the `playerWon` handler is idempotent per player per round: when
the room is not `playing`, or the sender's player is already marked
finished, the call changes no room or player state (and emits no round
result). -/
theorem playerWon_idempotent (room : Room) (sid : String) (now : Int)
    (h : room.status ≠ .playing ∨
      (room.players.findIdx (fun p => p.id = sid) < room.players.length ∧
       (room.players.getD (room.players.findIdx fun p => p.id = sid)
          default).finished = true)) :
    playerWon room sid now = (room, none) := by
  unfold playerWon
  by_cases hs : room.status ≠ Status.playing
  · rw [if_pos hs]
  · rw [if_neg hs]
    rcases h with h | ⟨-, h2⟩
    · exact absurd h (by simpa using hs)
    · rw [if_neg fun hc => hc.2 h2]

/-- C4 witness: a `waiting` room is untouched by `playerWon`. -/
theorem playerWon_idempotent_witness :
    ({ id := "AAAA"
       players := [{ id := "s1", name := "Alice", score := 0,
                     color := "#FF4136" }]
       maxPlayers := 2
       totalRounds := 3
       currentRound := 1
       status := .waiting } : Room).status ≠ Status.playing ∧
    playerWon
      { id := "AAAA"
        players := [{ id := "s1", name := "Alice", score := 0,
                      color := "#FF4136" }]
        maxPlayers := 2
        totalRounds := 3
        currentRound := 1
        status := .waiting } "s1" 5000 =
      ({ id := "AAAA"
         players := [{ id := "s1", name := "Alice", score := 0,
                       color := "#FF4136" }]
         maxPlayers := 2
         totalRounds := 3
         currentRound := 1
         status := .waiting }, none) :=
  ⟨by decide, playerWon_idempotent _ _ _ (Or.inl (by decide))⟩

/-- C5 witness: a full room left in `waiting` (e.g. capacity 1, created by
its host) gets `RoomFull` unchanged. -/
theorem joinRoom_full_waiting_witness :
    ({ id := "AAAA"
       players := [{ id := "s1", name := "Alice", score := 0,
                     color := "#FF4136" }]
       maxPlayers := 1
       totalRounds := 3
       currentRound := 1
       status := .waiting } : Room).status = Status.waiting ∧
    ((([{ id := "s1", name := "Alice", score := 0,
          color := "#FF4136" }] : List Player).length : Int) = 1) ∧
    joinRoom
      { id := "AAAA"
        players := [{ id := "s1", name := "Alice", score := 0,
                      color := "#FF4136" }]
        maxPlayers := 1
        totalRounds := 3
        currentRound := 1
        status := .waiting } "s2" "Bob" (fun _ => dirs) 0 =
      ({ id := "AAAA"
         players := [{ id := "s1", name := "Alice", score := 0,
                       color := "#FF4136" }]
         maxPlayers := 1
         totalRounds := 3
         currentRound := 1
         status := .waiting }, some .roomFull) :=
  ⟨rfl, by decide, joinRoom_full_waiting _ _ _ _ _ rfl (by decide)⟩

/-- C6 witness: a 2-capacity waiting room with one player auto-starts when
the second player joins. -/
theorem joinRoom_autostart_witness :
    ({ id := "AAAA"
       players := [{ id := "s1", name := "Alice", score := 0,
                     color := "#FF4136" }]
       maxPlayers := 2
       totalRounds := 3
       currentRound := 1
       status := .waiting } : Room).status = Status.waiting ∧
    ((([{ id := "s1", name := "Alice", score := 0,
          color := "#FF4136" }] : List Player).length : Int) + 1 = 2) ∧
    ((joinRoom
      { id := "AAAA"
        players := [{ id := "s1", name := "Alice", score := 0,
                      color := "#FF4136" }]
        maxPlayers := 2
        totalRounds := 3
        currentRound := 1
        status := .waiting } "s2" "Bob" (fun _ => dirs) 0).2 = none ∧
    (joinRoom
      { id := "AAAA"
        players := [{ id := "s1", name := "Alice", score := 0,
                      color := "#FF4136" }]
        maxPlayers := 2
        totalRounds := 3
        currentRound := 1
        status := .waiting } "s2" "Bob" (fun _ => dirs) 0).1.status =
        .playing ∧
    (joinRoom
      { id := "AAAA"
        players := [{ id := "s1", name := "Alice", score := 0,
                      color := "#FF4136" }]
        maxPlayers := 2
        totalRounds := 3
        currentRound := 1
        status := .waiting } "s2" "Bob" (fun _ => dirs) 0).1.maze =
        some (generateMaze 21 21 (fun _ => dirs)) ∧
    (joinRoom
      { id := "AAAA"
        players := [{ id := "s1", name := "Alice", score := 0,
                      color := "#FF4136" }]
        maxPlayers := 2
        totalRounds := 3
        currentRound := 1
        status := .waiting } "s2" "Bob" (fun _ => dirs) 0).1.maze ≠ none ∧
    (joinRoom
      { id := "AAAA"
        players := [{ id := "s1", name := "Alice", score := 0,
                      color := "#FF4136" }]
        maxPlayers := 2
        totalRounds := 3
        currentRound := 1
        status := .waiting } "s2" "Bob" (fun _ => dirs) 0).1.startTime =
        some 0 ∧
    ∀ p ∈ (joinRoom
      { id := "AAAA"
        players := [{ id := "s1", name := "Alice", score := 0,
                      color := "#FF4136" }]
        maxPlayers := 2
        totalRounds := 3
        currentRound := 1
        status := .waiting } "s2" "Bob" (fun _ => dirs) 0).1.players,
      p.x = some 1 ∧ p.y = some 1) :=
  ⟨rfl, by decide, joinRoom_autostart _ _ _ _ _ rfl (by decide)⟩

/-- C7 counterexample: `createRoom` performs no validation of
`maxPlayers`, so a room created with `maxPlayers = 0` starts with its one
host player already exceeding the capacity. -/
theorem initRoom_exceeds_maxPlayers :
    (((initRoom "AAAA" "s1" "Alice" 0 3).players.length : Int) >
      (initRoom "AAAA" "s1" "Alice" 0 3).maxPlayers) := by
  decide

/-- C7 (amended): provided the room is created with `maxPlayers ≥ 1`
(which the source never checks), any sequence of `joinRoom` operations on
it keeps the player count at or below `maxPlayers`. -/
theorem player_count_le_maxPlayers (code sid pname : String)
    (maxPlayers totalRounds : Int) (js : List JoinReq)
    (hmp : 1 ≤ maxPlayers) :
    ((applyJoins (initRoom code sid pname maxPlayers totalRounds)
        js).players.length : Int) ≤
      (applyJoins (initRoom code sid pname maxPlayers totalRounds)
        js).maxPlayers := by
  suffices hgen : ∀ (js : List JoinReq) (room : Room),
      (room.players.length : Int) ≤ room.maxPlayers →
      ((applyJoins room js).players.length : Int) ≤
        (applyJoins room js).maxPlayers by
    apply hgen
    simp [initRoom]
    omega
  intro js
  induction js with
  | nil => intro room h; exact h
  | cons j tl ih =>
    intro room h
    have hstep : applyJoins room (j :: tl) =
        applyJoins ((joinRoom room j.sid j.name j.perm j.now).1) tl := rfl
    rw [hstep]
    apply ih
    unfold joinRoom
    split
    · exact h
    · split
      · exact h
      · split
        · rename_i hfull
          simp only [startRound, pushPlayer, List.length_map,
            List.length_append, List.length_cons, List.length_nil] at hfull ⊢
          omega
        · rename_i hcap hne
          simp only [pushPlayer, List.length_append, List.length_cons,
            List.length_nil] at hcap hne ⊢
          omega

/-- C7 witness: with `maxPlayers = 2` and no joins the bound holds. -/
theorem player_count_le_maxPlayers_witness :
    (1 : Int) ≤ 2 ∧
    ((applyJoins (initRoom "AAAA" "s1" "Alice" 2 3) []).players.length :
      Int) ≤ (applyJoins (initRoom "AAAA" "s1" "Alice" 2 3) []).maxPlayers :=
  ⟨by decide, player_count_le_maxPlayers "AAAA" "s1" "Alice" 2 3 []
    (by decide)⟩

/-- C8 (amended): every action moves a room's status only along
`waiting → playing`, `playing → round_over`, `playing → game_over` (when
the last finisher decides the match), `round_over → playing` — except that
`requestPlayAgain`, which has no status guard in the source, resets the
status to `waiting` from any status.  In particular no action other than
`requestPlayAgain` moves `playing` or `round_over` back to `waiting`. -/
theorem status_transitions (room : Room) (a : Action) :
    (step room a).status = room.status ∨
    (room.status = .waiting ∧ (step room a).status = .playing) ∨
    (room.status = .playing ∧ ((step room a).status = .round_over ∨
      (step room a).status = .game_over)) ∨
    (room.status = .round_over ∧ (step room a).status = .playing) ∨
    (a = .playAgain ∧ (step room a).status = .waiting) := by
  cases a with
  | join sid pname perm now =>
    simp only [step]
    unfold joinRoom
    split
    · exact Or.inl rfl
    · rename_i hw
      push_neg at hw
      split
      · exact Or.inl rfl
      · split
        · exact Or.inr (Or.inl ⟨hw, rfl⟩)
        · exact Or.inl rfl
  | move sid px py =>
    simp only [step]
    unfold playerMove
    split
    · exact Or.inl rfl
    · exact Or.inl rfl
  | won sid now =>
    simp only [step]
    unfold playerWon
    split
    · exact Or.inl rfl
    · rename_i hp
      push_neg at hp
      split
      · split
        · refine Or.inr (Or.inr (Or.inl ⟨hp, ?_⟩))
          rcases Bool.eq_false_or_eq_true (grandFlag room.totalRounds
            room.currentRound
            (roundWinner (finishedPlayers room sid now))) with hg | hg <;>
            simp [hg]
        · exact Or.inl rfl
      · exact Or.inl rfl
  | nextRound perm now =>
    simp only [step]
    unfold requestNextRound
    split
    · exact Or.inl rfl
    · rename_i hr
      push_neg at hr
      split
      · exact Or.inr (Or.inr (Or.inr (Or.inl ⟨hr, rfl⟩)))
      · exact Or.inl rfl
  | playAgain =>
    exact Or.inr (Or.inr (Or.inr (Or.inr ⟨rfl, rfl⟩)))
  | leave sid =>
    exact Or.inl rfl

/-- C8 counterexample: `requestPlayAgain` on a room that is still
`playing` sends it straight back to `waiting` without ever passing through
`game_over`, because the handler checks only that the room exists. -/
theorem playAgain_from_playing :
    ({ id := "AAAA"
       players := [{ id := "s1", name := "Alice", score := 0,
                     color := "#FF4136" }]
       maxPlayers := 2
       totalRounds := 3
       currentRound := 1
       status := .playing } : Room).status = Status.playing ∧
    (step
      { id := "AAAA"
        players := [{ id := "s1", name := "Alice", score := 0,
                      color := "#FF4136" }]
        maxPlayers := 2
        totalRounds := 3
        currentRound := 1
        status := .playing } .playAgain).status = Status.waiting := by
  exact ⟨rfl, rfl⟩

/-- C9: whenever `generateRoomCode` returns a code, it is exactly 4
characters, each drawn from the fixed 32-character alphabet (which excludes
the visually confusable `I`, `O`, `0`, `1`), and it differs from the code
of every room live in the registry at creation time; `createRoom` installs
the room under exactly such a code. -/
theorem generateRoomCode_spec (rooms : List (String × Room))
    (r : Nat → Fin 32) (fuel k : Nat) (code : String)
    (h : generateRoomCode rooms r fuel k = some code) :
    code.length = 4 ∧
    (∀ c ∈ code.toList, c ∈ alphabet) ∧
    rooms.lookup code = none ∧
    alphabet.length = 32 ∧
    'I' ∉ alphabet ∧ 'O' ∉ alphabet ∧ '0' ∉ alphabet ∧ '1' ∉ alphabet := by
  induction fuel generalizing k with
  | zero => simp [generateRoomCode] at h
  | succ fuel ih =>
    rw [generateRoomCode] at h
    split at h
    · exact ih _ h
    · rename_i hlk
      cases h
      refine ⟨?_, ?_, ?_, by decide, by decide, by decide, by decide,
        by decide⟩
      · rfl
      · intro c hc
        simp only [drawCode, String.toList, String.mk] at hc
        rw [List.mem_map] at hc
        obtain ⟨i, -, rfl⟩ := hc
        have hlt : ((r (k + i)) : Nat) < alphabet.length :=
          (r (k + i)).isLt
        rw [List.getD_eq_getElem?_getD, List.getElem?_eq_getElem hlt]
        exact List.getElem_mem hlt
      · exact Option.not_isSome_iff_eq_none.mp hlk

/-- C9 witness: with the trivial draw oracle and an empty registry the
generator returns `"AAAA"`, which satisfies the specification. -/
theorem generateRoomCode_spec_witness :
    generateRoomCode [] (fun _ => 0) 1 0 = some "AAAA" ∧
    ("AAAA".length = 4 ∧
    (∀ c ∈ "AAAA".toList, c ∈ alphabet) ∧
    ([] : List (String × Room)).lookup "AAAA" = none ∧
    alphabet.length = 32 ∧
    'I' ∉ alphabet ∧ 'O' ∉ alphabet ∧ '0' ∉ alphabet ∧ '1' ∉ alphabet) :=
  ⟨by decide, generateRoomCode_spec [] (fun _ => 0) 1 0 "AAAA" (by decide)⟩

/-! ### The head of the stable sort is the first minimum

The winner of a round is `[...players].sort((a,b) =>
a.lastFinishTime - b.lastFinishTime)[0]`.  JavaScript's sort is stable, so
this is the player with the minimum time, exact ties resolved to the
earliest position.  The next lemmas prove that characterisation of the
head of `mergeSort` over the position indices. -/

theorem pair_sublist_range {a b n : Nat} (hab : a < b) (hbn : b < n) :
    List.Sublist [a, b] (List.range n) := by
  induction n with
  | zero => omega
  | succ n ih =>
    rw [List.range_succ]
    by_cases hb : b < n
    · exact (ih hb).trans (List.sublist_append_left _ _)
    · have hbn' : b = n := by omega
      subst hbn'
      exact List.Sublist.append
        (List.singleton_sublist.mpr (List.mem_range.mpr hab))
        (List.Sublist.refl _)

theorem head_mergeSort_range (key : Nat → ℚ) (n : Nat) (hn : 0 < n) :
    ((List.range n).mergeSort fun i j =>
        decide (key i ≤ key j)).headD 0 < n ∧
    (∀ j < n, key (((List.range n).mergeSort fun i j =>
        decide (key i ≤ key j)).headD 0) ≤ key j) ∧
    (∀ j < ((List.range n).mergeSort fun i j =>
        decide (key i ≤ key j)).headD 0,
      key (((List.range n).mergeSort fun i j =>
        decide (key i ≤ key j)).headD 0) < key j) := by
  have htrans : ∀ a b c : Nat, (fun i j => decide (key i ≤ key j)) a b →
      (fun i j => decide (key i ≤ key j)) b c →
      (fun i j => decide (key i ≤ key j)) a c := by
    intro a b c hab hbc
    simp only [decide_eq_true_iff] at hab hbc ⊢
    exact le_trans hab hbc
  have htotal : ∀ a b : Nat, (fun i j => decide (key i ≤ key j)) a b ||
      (fun i j => decide (key i ≤ key j)) b a := by
    intro a b
    simp only [Bool.or_eq_true, decide_eq_true_iff]
    exact le_total _ _
  have hperm := List.mergeSort_perm (List.range n)
    (fun i j => decide (key i ≤ key j))
  have hsorted := List.sorted_mergeSort htrans htotal (List.range n)
  match hout : (List.range n).mergeSort fun i j =>
      decide (key i ≤ key j) with
  | [] =>
    exfalso
    have := hperm.length_eq
    rw [hout] at this
    simp at this
    omega
  | hd :: tl =>
    rw [hout] at hperm hsorted
    have hnd : (hd :: tl).Nodup :=
      hperm.nodup_iff.mpr (List.nodup_range n)
    have hdlt : hd < n := by
      have : hd ∈ List.range n := hperm.mem_iff.mp (List.mem_cons_self _ _)
      exact List.mem_range.mp this
    have hmin : ∀ j < n, key hd ≤ key j := by
      intro j hj
      have hjmem : j ∈ hd :: tl :=
        hperm.mem_iff.mpr (List.mem_range.mpr hj)
      rcases List.mem_cons.mp hjmem with rfl | hjtl
      · exact le_refl _
      · have := (List.pairwise_cons.mp hsorted).1 j hjtl
        simpa using this
    refine ⟨hdlt, hmin, ?_⟩
    intro j hj
    simp only [List.headD_cons] at hj ⊢
    by_contra hcon
    push_neg at hcon
    have hle : (fun i j => decide (key i ≤ key j)) j hd := by
      simpa using hcon
    have hpair : List.Sublist [j, hd] (List.range n) :=
      pair_sublist_range hj hdlt
    have hsat := List.pair_sublist_mergeSort htrans htotal hle hpair
    rw [hout] at hsat
    cases hsat with
    | cons _ h =>
      have : hd ∈ tl := (List.Sublist.mem · h) (by simp)
      exact (List.nodup_cons.mp hnd).1 this
    | cons₂ _ h =>
      omega

theorem markFinished_length (ps : List Player) (sid : String) (t : ℚ) :
    (markFinished ps sid t).length = ps.length := by
  simp [markFinished]

theorem firstMinIdx_spec (ps : List Player) (hn : 0 < ps.length) :
    firstMinIdx ps < ps.length ∧
    (∀ j < ps.length, timeKey ps (firstMinIdx ps) ≤ timeKey ps j) ∧
    (∀ j < firstMinIdx ps, timeKey ps (firstMinIdx ps) < timeKey ps j) := by
  obtain ⟨hdlt, hmin, -⟩ := head_mergeSort_range (timeKey ps) ps.length hn
  have hex : ∃ i ∈ List.range ps.length,
      (fun i => decide (∀ j < ps.length, timeKey ps i ≤ timeKey ps j)) i :=
    ⟨_, List.mem_range.mpr hdlt, by simpa using hmin⟩
  have hflt : (List.range ps.length).findIdx
      (fun i => decide (∀ j < ps.length, timeKey ps i ≤ timeKey ps j)) <
      (List.range ps.length).length :=
    List.findIdx_lt_length_of_exists hex
  have hwlen : firstMinIdx ps < ps.length := by
    have := hflt
    simpa [firstMinIdx] using this
  obtain ⟨hpw, hprev⟩ := (List.findIdx_eq hflt).mp rfl
  rw [List.getElem_range] at hpw
  have hwmin : ∀ j < ps.length, timeKey ps (firstMinIdx ps) ≤ timeKey ps j :=
    by simpa [firstMinIdx] using hpw
  refine ⟨hwlen, hwmin, ?_⟩
  intro j hj
  have hj' : j < (List.range ps.length).length := by
    simp only [List.length_range]
    omega
  have hnp := hprev j (by simpa [firstMinIdx] using hj)
  rw [List.getElem_range] at hnp
  have : ¬∀ k < ps.length, timeKey ps j ≤ timeKey ps k := by
    simpa using hnp
  push_neg at this
  obtain ⟨k, hk, hkj⟩ := this
  exact lt_of_le_of_lt (hwmin k hk) hkj

theorem roundWinnerIdx_eq_firstMinIdx (ps : List Player)
    (hn : 0 < ps.length) :
    roundWinnerIdx ps = firstMinIdx ps := by
  obtain ⟨halt, hamin, hafirst⟩ := head_mergeSort_range (timeKey ps)
    ps.length hn
  obtain ⟨hblt, hbmin, hbfirst⟩ := firstMinIdx_spec ps hn
  have ha : roundWinnerIdx ps = ((List.range ps.length).mergeSort fun i j =>
      decide (timeKey ps i ≤ timeKey ps j)).headD 0 := rfl
  rw [ha]
  set a := ((List.range ps.length).mergeSort fun i j =>
      decide (timeKey ps i ≤ timeKey ps j)).headD 0 with hadef
  rcases Nat.lt_trichotomy a (firstMinIdx ps) with hlt | heq | hgt
  · have h1 := hbfirst a hlt
    have h2 := hamin (firstMinIdx ps) hblt
    exact absurd h2 (not_le.mpr h1)
  · exact heq
  · have h1 := hafirst (firstMinIdx ps) hgt
    have h2 := hbmin a halt
    exact absurd h2 (not_le.mpr h1)

/-- C2: when `playerWon` records a finish and every player of the room is
then finished, the round winner is the player with the minimum
`lastFinishTime` — exact ties broken in favor of the player appearing
earliest in the room's player list (the stable-sort head is the first
index attaining the minimum) — and exactly that winner's score is
incremented by one, every other list entry left unchanged. -/
theorem playerWon_round_winner (room : Room) (sid : String) (now : Int)
    (hplay : room.status = .playing)
    (hidx : (room.players.findIdx fun p => p.id = sid) < room.players.length)
    (hnf : (room.players.getD (room.players.findIdx fun p => p.id = sid)
      default).finished = false)
    (hall : (finishedPlayers room sid now).all (·.finished) = true) :
    firstMinIdx (finishedPlayers room sid now) <
      (finishedPlayers room sid now).length ∧
    (∀ j < (finishedPlayers room sid now).length,
      timeKey (finishedPlayers room sid now)
        (firstMinIdx (finishedPlayers room sid now)) ≤
      timeKey (finishedPlayers room sid now) j) ∧
    (∀ j < firstMinIdx (finishedPlayers room sid now),
      timeKey (finishedPlayers room sid now)
        (firstMinIdx (finishedPlayers room sid now)) <
      timeKey (finishedPlayers room sid now) j) ∧
    (playerWon room sid now).1.players.length =
      (finishedPlayers room sid now).length ∧
    ∀ i, (playerWon room sid now).1.players.getD i default =
      if i = firstMinIdx (finishedPlayers room sid now) then
        bumpScore ((finishedPlayers room sid now).getD i default)
      else
        (finishedPlayers room sid now).getD i default := by
  have hn : 0 < (finishedPlayers room sid now).length := by
    have := markFinished_length room.players sid
      (finishSeconds now room.startTime)
    simp only [finishedPlayers]
    omega
  obtain ⟨h1, h2, h3⟩ := firstMinIdx_spec (finishedPlayers room sid now) hn
  have hwin : roundWinnerIdx (finishedPlayers room sid now) =
      firstMinIdx (finishedPlayers room sid now) :=
    roundWinnerIdx_eq_firstMinIdx _ hn
  have hpw : (playerWon room sid now).1.players =
      awardWinner (finishedPlayers room sid now) := by
    unfold playerWon
    rw [if_neg (by simp [hplay]),
      if_pos ⟨hidx, by intro hc; rw [hnf] at hc; exact Bool.false_ne_true hc⟩,
      if_pos hall]
  have hrw : roundWinner (finishedPlayers room sid now) =
      bumpScore ((finishedPlayers room sid now).getD
        (firstMinIdx (finishedPlayers room sid now)) default) := by
    rw [← hwin]
    rfl
  refine ⟨h1, h2, h3, ?_, ?_⟩
  · rw [hpw]
    simp [awardWinner]
  · intro i
    rw [hpw]
    unfold awardWinner
    rw [hwin, hrw]
    rw [List.getD_eq_getElem?_getD, List.getElem?_set]
    by_cases hi : firstMinIdx (finishedPlayers room sid now) = i
    · rw [if_pos hi, if_pos (hi ▸ h1), if_pos hi.symm, ← hi]
      simp
    · rw [if_neg hi, if_neg fun hc => hi hc.symm,
        ← List.getD_eq_getElem?_getD]

/-- C2 witness: on the sample room (times 5.0 s, —, 3.2 s with P2 about to
finish at exactly 3.2 s, tying P3 but listed earlier), the hypotheses hold
concretely and the theorem applies. -/
theorem playerWon_round_winner_witness :
    sampleRoom.status = .playing ∧
    (sampleRoom.players.findIdx fun p => p.id = "s2") <
      sampleRoom.players.length ∧
    (sampleRoom.players.getD
      (sampleRoom.players.findIdx fun p => p.id = "s2")
      default).finished = false ∧
    (finishedPlayers sampleRoom "s2" 3200).all (·.finished) = true ∧
    (∀ i, (playerWon sampleRoom "s2" 3200).1.players.getD i default =
      if i = firstMinIdx (finishedPlayers sampleRoom "s2" 3200) then
        bumpScore ((finishedPlayers sampleRoom "s2" 3200).getD i default)
      else
        (finishedPlayers sampleRoom "s2" 3200).getD i default) :=
  ⟨rfl, by decide, by decide, by decide,
    (playerWon_round_winner sampleRoom "s2" 3200 rfl (by decide) (by decide)
      (by decide)).2.2.2.2⟩

/-- C3: when a round ends (all players finished), the broadcast
match-winner flag holds exactly when
`winner.score ≥ ceil(totalRounds / 2)` or
`currentRound = totalRounds`, and the room status becomes `game_over`
exactly when the flag is true (otherwise `round_over`); in particular
`ceil(5 / 2) = 3`, so with `totalRounds = 5` a winner reaching score 3
ends the match, and at `currentRound = totalRounds` the match always
ends. -/
theorem playerWon_match_end (room : Room) (sid : String) (now : Int)
    (hplay : room.status = .playing)
    (hidx : (room.players.findIdx fun p => p.id = sid) < room.players.length)
    (hnf : (room.players.getD (room.players.findIdx fun p => p.id = sid)
      default).finished = false)
    (hall : (finishedPlayers room sid now).all (·.finished) = true) :
    (playerWon room sid now).2 =
      some { winner := roundWinner (finishedPlayers room sid now)
             players := awardWinner (finishedPlayers room sid now)
             currentRound := room.currentRound
             totalRounds := room.totalRounds
             isGrandWinner := grandFlag room.totalRounds room.currentRound
               (roundWinner (finishedPlayers room sid now)) } ∧
    (grandFlag room.totalRounds room.currentRound
        (roundWinner (finishedPlayers room sid now)) = true ↔
      (((roundWinner (finishedPlayers room sid now)).score : Int) ≥
          winsNeeded room.totalRounds ∨
        room.currentRound = room.totalRounds)) ∧
    ((playerWon room sid now).1.status = .game_over ↔
      grandFlag room.totalRounds room.currentRound
        (roundWinner (finishedPlayers room sid now)) = true) ∧
    ((playerWon room sid now).1.status = .game_over ∨
      (playerWon room sid now).1.status = .round_over) ∧
    winsNeeded 5 = 3 ∧
    (room.totalRounds = 5 →
      ((roundWinner (finishedPlayers room sid now)).score : Int) ≥ 3 →
      grandFlag room.totalRounds room.currentRound
        (roundWinner (finishedPlayers room sid now)) = true) ∧
    (room.currentRound = room.totalRounds →
      grandFlag room.totalRounds room.currentRound
        (roundWinner (finishedPlayers room sid now)) = true) := by
  have hbr : playerWon room sid now =
      ({ room with
          players := awardWinner (finishedPlayers room sid now)
          status :=
            if grandFlag room.totalRounds room.currentRound
                (roundWinner (finishedPlayers room sid now)) then
              .game_over
            else
              .round_over },
        some { winner := roundWinner (finishedPlayers room sid now)
               players := awardWinner (finishedPlayers room sid now)
               currentRound := room.currentRound
               totalRounds := room.totalRounds
               isGrandWinner := grandFlag room.totalRounds room.currentRound
                 (roundWinner (finishedPlayers room sid now)) }) := by
    unfold playerWon
    rw [if_neg (by simp [hplay]),
      if_pos ⟨hidx, by intro hc; rw [hnf] at hc; exact Bool.false_ne_true hc⟩,
      if_pos hall]
  have hwn5 : winsNeeded 5 = 3 := by
    rw [winsNeeded, Int.ceil_eq_iff]
    constructor <;> norm_num
  refine ⟨by rw [hbr], ?_, ?_, ?_, hwn5, ?_, ?_⟩
  · simp [grandFlag]
  · rw [hbr]
    rcases Bool.eq_false_or_eq_true (grandFlag room.totalRounds
      room.currentRound (roundWinner (finishedPlayers room sid now)))
      with hg | hg <;> simp [hg]
  · rw [hbr]
    rcases Bool.eq_false_or_eq_true (grandFlag room.totalRounds
      room.currentRound (roundWinner (finishedPlayers room sid now)))
      with hg | hg <;> simp [hg]
  · intro htr hsc
    simp only [grandFlag, decide_eq_true_iff]
    exact Or.inl (by rw [htr, hwn5]; exact hsc)
  · intro hcr
    simp only [grandFlag, decide_eq_true_iff]
    exact Or.inr hcr

/-- C3 witness: on the sample room (`totalRounds = 5`, `currentRound = 2`,
winner score 1 after the bump) the theorem applies; the flag is false
there and the status becomes `round_over`. -/
theorem playerWon_match_end_witness :
    sampleRoom.status = .playing ∧
    (sampleRoom.players.findIdx fun p => p.id = "s2") <
      sampleRoom.players.length ∧
    (sampleRoom.players.getD
      (sampleRoom.players.findIdx fun p => p.id = "s2")
      default).finished = false ∧
    (finishedPlayers sampleRoom "s2" 3200).all (·.finished) = true ∧
    ((playerWon sampleRoom "s2" 3200).1.status = .game_over ↔
      grandFlag sampleRoom.totalRounds sampleRoom.currentRound
        (roundWinner (finishedPlayers sampleRoom "s2" 3200)) = true) ∧
    winsNeeded 5 = 3 :=
  ⟨rfl, by decide, by decide, by decide,
    (playerWon_match_end sampleRoom "s2" 3200 rfl (by decide) (by decide)
      (by decide)).2.2.1,
    (playerWon_match_end sampleRoom "s2" 3200 rfl (by decide) (by decide)
      (by decide)).2.2.2.2.1⟩

/-! ### Maze generator: basic lemmas -/

theorem setPath_self (m : Maze) (y x : Int) : setPath m y x y x = 0 := by
  simp [setPath]

theorem setPath_preserve (m : Maze) (y x y' x' : Int) (h : m y' x' = 0) :
    setPath m y x y' x' = 0 := by
  unfold setPath
  split <;> simp [h]

theorem setPath_cases (m : Maze) (y x y' x' : Int)
    (h : setPath m y x y' x' = 0) : (y' = y ∧ x' = x) ∨ m y' x' = 0 := by
  unfold setPath at h
  split at h
  · left; assumption
  · right; exact h

theorem carvedLE_setPath (m : Maze) (y x : Int) :
    carvedLE m (setPath m y x) :=
  fun _ _ h => setPath_preserve _ _ _ _ _ h

theorem carvedLE_refl (m : Maze) : carvedLE m m := fun _ _ h => h

theorem carvedLE_trans {m₁ m₂ m₃ : Maze} (h1 : carvedLE m₁ m₂)
    (h2 : carvedLE m₂ m₃) : carvedLE m₁ m₃ :=
  fun y x h => h2 y x (h1 y x h)

theorem bool_setPath (m : Maze) (y x : Int)
    (h : ∀ y' x', m y' x' = 0 ∨ m y' x' = 1) :
    ∀ y' x', setPath m y x y' x' = 0 ∨ setPath m y x y' x' = 1 := by
  intro y' x'
  unfold setPath
  split
  · exact Or.inl rfl
  · exact h y' x'

theorem linked_mono {m m' : Maze} (hle : carvedLE m m') {p q : Int × Int}
    (h : linked m p q) : linked m' p q :=
  ⟨h.1, hle _ _ h.2.1, hle _ _ h.2.2⟩

theorem linkReach_mono {m m' : Maze} (hle : carvedLE m m') {p q : Int × Int}
    (h : LinkReach m p q) : LinkReach m' p q :=
  Relation.ReflTransGen.mono (fun _ _ hl => linked_mono hle hl) h

theorem validNeighbors_sound (w h : Int) (m : Maze) (cx cy : Int)
    (ds : List (Int × Int)) (v : Nb)
    (hv : v ∈ validNeighbors w h m cx cy ds) :
    ∃ d ∈ ds, v.nx = cx + d.1 ∧ v.ny = cy + d.2 ∧
      v.dx = d.1 / 2 ∧ v.dy = d.2 / 2 ∧
      0 < v.nx ∧ v.nx < w - 1 ∧ 0 < v.ny ∧ v.ny < h - 1 ∧
      m v.ny v.nx = 1 := by
  unfold validNeighbors at hv
  rw [List.mem_filterMap] at hv
  obtain ⟨d, hd, hf⟩ := hv
  split at hf
  · rename_i hcond
    cases hf
    exact ⟨d, hd, rfl, rfl, rfl, rfl, hcond.1, hcond.2.1, hcond.2.2.1,
      hcond.2.2.2.1, hcond.2.2.2.2⟩
  · cases hf

theorem validNeighbors_empty (w h : Int) (m : Maze) (cx cy : Int)
    (ds : List (Int × Int))
    (hv : validNeighbors w h m cx cy ds = []) :
    ∀ d ∈ ds, ¬(0 < cx + d.1 ∧ cx + d.1 < w - 1 ∧ 0 < cy + d.2 ∧
      cy + d.2 < h - 1 ∧ m (cy + d.2) (cx + d.1) = 1) := by
  intro d hd hcond
  unfold validNeighbors at hv
  have := List.forall_none_of_filterMap_eq_nil hv d hd
  rw [if_pos hcond] at this
  cases this

/-- The four directions enumerated, with the arithmetic facts the
invariant proofs need: even components, the half-step, and the midpoint
between a cell and its step-2 neighbor. -/
theorem dirs_cases (d : Int × Int) (hd : d ∈ dirs) :
    d = (0, -2) ∨ d = (0, 2) ∨ d = (-2, 0) ∨ d = (2, 0) := by
  simp only [dirs, List.mem_cons, List.not_mem_nil, or_false] at hd
  exact hd

theorem wallCount_setPath_le (w h : Int) (m : Maze) (y x : Int) :
    wallCount w h (setPath m y x) ≤ wallCount w h m := by
  apply Finset.card_le_card
  intro p hp
  simp only [Finset.mem_filter] at hp ⊢
  refine ⟨hp.1, ?_⟩
  have h2 := hp.2
  unfold setPath at h2
  split at h2
  · exact absurd h2 (by omega)
  · exact h2

theorem wallCount_setPath_lt (w h : Int) (m : Maze) (y x : Int)
    (hx : 0 < x) (hx' : x < w - 1) (hy : 0 < y) (hy' : y < h - 1)
    (hm : m y x = 1) :
    wallCount w h (setPath m y x) < wallCount w h m := by
  apply Finset.card_lt_card
  constructor
  · intro p hp
    simp only [Finset.mem_filter] at hp ⊢
    refine ⟨hp.1, ?_⟩
    have h2 := hp.2
    unfold setPath at h2
    split at h2
    · exact absurd h2 (by omega)
    · exact h2
  · intro hsub
    have hx2 : (x, y) ∈ (region w h).filter fun p => m p.2 p.1 = 1 := by
      simp only [Finset.mem_filter, region, Finset.mem_product, Finset.mem_Ioo]
      exact ⟨⟨⟨hx, hx'⟩, ⟨hy, hy'⟩⟩, hm⟩
    have hin := hsub hx2
    simp only [Finset.mem_filter, setPath] at hin
    have h2 := hin.2
    simp at h2

theorem mazeLoop_nil (w h : Int) (perm : Nat → List (Int × Int)) (m : Maze)
    (n : Nat) : mazeLoop w h perm m [] n = m := by
  rw [mazeLoop]

theorem mazeLoop_pop (w h : Int) (perm : Nat → List (Int × Int)) (m : Maze)
    (c : Int × Int) (rest : List (Int × Int)) (n : Nat)
    (hv : validNeighbors w h m c.1 c.2 (perm n) = []) :
    mazeLoop w h perm m (c :: rest) n = mazeLoop w h perm m rest (n + 1) := by
  rw [mazeLoop]
  split
  · rfl
  · rename_i v tail hv2
    rw [hv] at hv2
    cases hv2

theorem mazeLoop_carve (w h : Int) (perm : Nat → List (Int × Int)) (m : Maze)
    (c : Int × Int) (rest : List (Int × Int)) (n : Nat) (v : Nb)
    (tail : List Nb)
    (hv : validNeighbors w h m c.1 c.2 (perm n) = v :: tail) :
    mazeLoop w h perm m (c :: rest) n =
      mazeLoop w h perm
        (setPath (setPath m v.ny v.nx) (c.2 + v.dy) (c.1 + v.dx))
        ((v.nx, v.ny) :: c :: rest) (n + 1) := by
  rw [mazeLoop]
  split
  · rename_i hv2
    rw [hv] at hv2
    cases hv2
  · rename_i v2 tail2 hv2
    rw [hv] at hv2
    cases hv2
    rfl

theorem step_facts (cx cy dx dy : Int) (hd : (dx, dy) ∈ dirs)
    (h1 : Odd cx) (h2 : Odd cy) :
    Odd (cx + dx) ∧ Odd (cy + dy) ∧
    cx + dx / 2 = (cx + (cx + dx)) / 2 ∧
    cy + dy / 2 = (cy + (cy + dy)) / 2 ∧
    ¬(Odd (cx + dx / 2) ∧ Odd (cy + dy / 2)) := by
  rw [Int.odd_iff] at h1 h2
  have hcases := dirs_cases _ hd
  simp only [Prod.mk.injEq] at hcases
  rcases hcases with ⟨rfl, rfl⟩ | ⟨rfl, rfl⟩ | ⟨rfl, rfl⟩ | ⟨rfl, rfl⟩ <;>
    refine ⟨by rw [Int.odd_iff]; omega, by rw [Int.odd_iff]; omega,
      by omega, by omega, ?_⟩ <;>
    · rintro ⟨ho1, ho2⟩
      rw [Int.odd_iff] at ho1 ho2
      omega

theorem loopInv_pop (w h : Int) (m : Maze) (c : Int × Int)
    (rest : List (Int × Int)) (ds : List (Int × Int)) (hds : ds.Perm dirs)
    (hv : validNeighbors w h m c.1 c.2 ds = [])
    (hinv : LoopInv w h m (c :: rest)) : LoopInv w h m rest := by
  obtain ⟨hbool, hstart, hstack, hclosed, hreach⟩ := hinv
  refine ⟨hbool, hstart,
    fun p hp => hstack p (List.mem_cons_of_mem _ hp), ?_, hreach⟩
  intro p hpcell hppath hpnot q hqcell hqadj
  by_cases hpc : p = c
  · subst hpc
    obtain ⟨d, hd, hq⟩ := hqadj
    have hd' : d ∈ ds := hds.mem_iff.mpr hd
    have hcontra := validNeighbors_empty w h m p.1 p.2 ds hv d hd'
    obtain ⟨-, -, hq1, hq2, hq3, hq4⟩ := hqcell
    rcases hbool q.2 q.1 with h0 | h1
    · exact h0
    · exfalso
      apply hcontra
      subst hq
      simp only at hq1 hq2 hq3 hq4 h1 ⊢
      exact ⟨hq1, hq2, hq3, hq4, h1⟩
  · exact hclosed p hpcell hppath
      (by simp only [List.mem_cons]; rintro (h | h); exact hpc h; exact hpnot h)
      q hqcell hqadj

theorem loopInv_carve (w h : Int) (m : Maze) (c : Int × Int)
    (rest : List (Int × Int)) (ds : List (Int × Int)) (hds : ds.Perm dirs)
    (v : Nb) (tail : List Nb)
    (hv : validNeighbors w h m c.1 c.2 ds = v :: tail)
    (hinv : LoopInv w h m (c :: rest)) :
    LoopInv w h (setPath (setPath m v.ny v.nx) (c.2 + v.dy) (c.1 + v.dx))
      ((v.nx, v.ny) :: c :: rest) := by
  obtain ⟨hbool, hstart, hstack, hclosed, hreach⟩ := hinv
  have hvmem : v ∈ validNeighbors w h m c.1 c.2 ds := by
    rw [hv]; exact List.mem_cons_self _ _
  obtain ⟨d, hd, hnx, hny, hdx, hdy, hb1, hb2, hb3, hb4, hwall⟩ :=
    validNeighbors_sound w h m c.1 c.2 ds v hvmem
  have hd' : d ∈ dirs := hds.mem_iff.mp hd
  obtain ⟨hccell, hcpath⟩ := hstack c (List.mem_cons_self _ _)
  obtain ⟨hcodd1, hcodd2, hc1, hc2, hc3, hc4⟩ := hccell
  obtain ⟨hoddx, hoddy, hmidx, hmidy, hbetweven⟩ :=
    step_facts c.1 c.2 d.1 d.2 (by simpa using hd') hcodd1 hcodd2
  have hle : carvedLE m
      (setPath (setPath m v.ny v.nx) (c.2 + v.dy) (c.1 + v.dx)) :=
    carvedLE_trans (carvedLE_setPath _ _ _) (carvedLE_setPath _ _ _)
  have hnew : setPath (setPath m v.ny v.nx) (c.2 + v.dy) (c.1 + v.dx)
      v.ny v.nx = 0 :=
    setPath_preserve _ _ _ _ _ (setPath_self _ _ _)
  have hbetween : setPath (setPath m v.ny v.nx) (c.2 + v.dy) (c.1 + v.dx)
      (c.2 + v.dy) (c.1 + v.dx) = 0 := setPath_self _ _ _
  have hnewcell : isCell w h (v.nx, v.ny) := by
    refine ⟨?_, ?_, hb1, hb2, hb3, hb4⟩
    · simp only
      rw [hnx]; exact hoddx
    · simp only
      rw [hny]; exact hoddy
  have hbetw_not_cell : ∀ p : Int × Int, isCell w h p →
      ¬(p.1 = c.1 + v.dx ∧ p.2 = c.2 + v.dy) := by
    rintro p ⟨hp1, hp2, -, -, -, -⟩ ⟨he1, he2⟩
    apply hbetweven
    rw [hdx] at he1
    rw [hdy] at he2
    exact ⟨he1 ▸ hp1, he2 ▸ hp2⟩
  constructor
  · exact bool_setPath _ _ _ (bool_setPath _ _ _ hbool)
  · exact hle _ _ hstart
  · intro p hp
    rcases List.mem_cons.mp hp with rfl | hp'
    · exact ⟨hnewcell, hnew⟩
    · obtain ⟨hcell', hpath'⟩ := hstack p hp'
      exact ⟨hcell', hle _ _ hpath'⟩
  · intro p hpcell hppath hpnot q hqcell hqadj
    have hpnot1 : p ≠ (v.nx, v.ny) := fun he => hpnot (by rw [he]; exact List.mem_cons_self _ _)
    have hpnot2 : p ∉ c :: rest := fun hm => hpnot (List.mem_cons_of_mem _ hm)
    rcases setPath_cases _ _ _ _ _ hppath with ⟨he2, he1⟩ | hm1
    · exact absurd ⟨he1, he2⟩ (hbetw_not_cell p hpcell)
    · rcases setPath_cases _ _ _ _ _ hm1 with ⟨he2, he1⟩ | hm0
      · exact absurd (Prod.ext he1 he2) hpnot1
      · exact hle _ _ (hclosed p hpcell hm0 hpnot2 q hqcell hqadj)
  · intro p hpcell hppath
    rcases setPath_cases _ _ _ _ _ hppath with ⟨he2, he1⟩ | hm1
    · exact absurd ⟨he1, he2⟩ (hbetw_not_cell p hpcell)
    · rcases setPath_cases _ _ _ _ _ hm1 with ⟨he2, he1⟩ | hm0
      · have hp : p = (v.nx, v.ny) := Prod.ext he1 he2
        subst hp
        have hrc : LinkReach m (1, 1) c := hreach c
          ⟨hcodd1, hcodd2, hc1, hc2, hc3, hc4⟩ hcpath
        refine Relation.ReflTransGen.tail (linkReach_mono hle hrc) ?_
        refine ⟨⟨d, hd', ?_⟩, hppath, ?_⟩
        · rw [hnx, hny]
        · have hx : (c.1 + v.nx) / 2 = c.1 + v.dx := by
            rw [hnx, hdx]; omega
          have hy : (c.2 + v.ny) / 2 = c.2 + v.dy := by
            rw [hny, hdy]; omega
          show setPath (setPath m v.ny v.nx) (c.2 + v.dy) (c.1 + v.dx)
            ((c.2 + v.ny) / 2) ((c.1 + v.nx) / 2) = 0
          rw [hx, hy]
          exact hbetween
      · exact linkReach_mono hle (hreach p hpcell hm0)

theorem mazeLoop_inv (w h : Int) (perm : Nat → List (Int × Int))
    (hperm : ∀ k, (perm k).Perm dirs) :
    ∀ N m (stack : List (Int × Int)) n,
      2 * wallCount w h m + stack.length ≤ N →
      LoopInv w h m stack →
      LoopInv w h (mazeLoop w h perm m stack n) [] := by
  intro N
  induction N with
  | zero =>
    intro m stack n hle hinv
    cases stack with
    | nil => rw [mazeLoop_nil]; exact hinv
    | cons c rest => simp only [List.length_cons] at hle; omega
  | succ N ih =>
    intro m stack n hle hinv
    cases stack with
    | nil => rw [mazeLoop_nil]; exact hinv
    | cons c rest =>
      rcases hvn : validNeighbors w h m c.1 c.2 (perm n) with - | ⟨v, tail⟩
      · rw [mazeLoop_pop w h perm m c rest n hvn]
        refine ih m rest (n + 1) ?_
          (loopInv_pop w h m c rest (perm n) (hperm n) hvn hinv)
        simp only [List.length_cons] at hle
        omega
      · rw [mazeLoop_carve w h perm m c rest n v tail hvn]
        refine ih _ _ (n + 1) ?_
          (loopInv_carve w h m c rest (perm n) (hperm n) v tail hvn hinv)
        have hvmem : v ∈ validNeighbors w h m c.1 c.2 (perm n) := by
          rw [hvn]; exact List.mem_cons_self _ _
        obtain ⟨d, -, -, -, -, -, hb1, hb2, hb3, hb4, hwall⟩ :=
          validNeighbors_sound w h m c.1 c.2 (perm n) v hvmem
        have h1 := wallCount_setPath_lt w h m v.ny v.nx hb1 hb2 hb3 hb4 hwall
        have h2 := wallCount_setPath_le w h (setPath m v.ny v.nx)
          (c.2 + v.dy) (c.1 + v.dx)
        simp only [List.length_cons] at hle ⊢
        omega

/-- With the stack empty, the carved set is closed under cell adjacency:
every cell reachable from `(1,1)` in the cell grid is carved. -/
theorem closed_all_carved (w h : Int) (M : Maze) (hM : LoopInv w h M [])
    (hw5 : 5 ≤ w) (hh5 : 5 ≤ h) :
    ∀ p, CellReach w h (1, 1) p → isPath M p ∧ (p = (1, 1) ∨ isCell w h p) := by
  intro p hp
  induction hp with
  | refl => exact ⟨hM.start, Or.inl rfl⟩
  | tail hab hbc ih =>
    rename_i b q
    obtain ⟨hqcell, hqadj⟩ := hbc
    obtain ⟨hbpath, hbcase⟩ := ih
    have hbcell : isCell w h b := by
      rcases hbcase with rfl | hcell
      · exact ⟨⟨0, by norm_num⟩, ⟨0, by norm_num⟩, by norm_num, by omega,
          by norm_num, by omega⟩
      · exact hcell
    exact ⟨hM.closed b hbcell hbpath (List.not_mem_nil _) q hqcell hqadj,
      Or.inr hqcell⟩

/-- The cell grid is connected: every cell is cell-reachable from
`(1, 1)`. -/
theorem cellReach_all (w h : Int) (hw5 : 5 ≤ w) (_hh5 : 5 ≤ h) :
    ∀ p, isCell w h p → CellReach w h (1, 1) p := by
  have hvert : ∀ j : Nat, ∀ y : Int, y = 2 * (j : Int) + 1 →
      isCell w h (1, y) → CellReach w h (1, 1) (1, y) := by
    intro j
    induction j with
    | zero =>
      intro y hy _
      have h1 : y = 1 := by push_cast at hy; omega
      subst h1
      exact Relation.ReflTransGen.refl
    | succ j ih =>
      intro y hy hcell
      simp only [isCell] at hcell
      obtain ⟨ho1, ho2, hb1, hb2, hb3, hb4⟩ := hcell
      have hy' : y = 2 * ((j : Int) + 1) + 1 := by push_cast at hy; omega
      have hprev : isCell w h (1, y - 2) := by
        simp only [isCell]
        obtain ⟨k, hk⟩ := ho2
        exact ⟨⟨0, by norm_num⟩, ⟨k - 1, by omega⟩, by norm_num, by omega,
          by omega, by omega⟩
      refine Relation.ReflTransGen.tail (ih (y - 2) (by omega) hprev) ?_
      refine ⟨?_, ⟨(0, 2), by simp [dirs], ?_⟩⟩
      · simp only [isCell]
        exact ⟨⟨0, by norm_num⟩, ho2, hb1, hb2, hb3, hb4⟩
      · simp only [Prod.mk.injEq]
        constructor <;> omega
  have hhoriz : ∀ i : Nat, ∀ x y : Int, x = 2 * (i : Int) + 1 →
      isCell w h (x, y) → CellReach w h (1, y) (x, y) := by
    intro i
    induction i with
    | zero =>
      intro x y hx _
      have h1 : x = 1 := by push_cast at hx; omega
      subst h1
      exact Relation.ReflTransGen.refl
    | succ i ih =>
      intro x y hx hcell
      simp only [isCell] at hcell
      obtain ⟨ho1, ho2, hb1, hb2, hb3, hb4⟩ := hcell
      have hx' : x = 2 * ((i : Int) + 1) + 1 := by push_cast at hx; omega
      have hprev : isCell w h (x - 2, y) := by
        simp only [isCell]
        obtain ⟨k, hk⟩ := ho1
        exact ⟨⟨k - 1, by omega⟩, ho2, by omega, by omega, hb3, hb4⟩
      refine Relation.ReflTransGen.tail (ih (x - 2) y (by omega) hprev) ?_
      refine ⟨?_, ⟨(2, 0), by simp [dirs], ?_⟩⟩
      · simp only [isCell]
        exact ⟨ho1, ho2, hb1, hb2, hb3, hb4⟩
      · simp only [Prod.mk.injEq]
        constructor <;> omega
  intro p hcell
  have hcell' := hcell
  simp only [isCell] at hcell'
  obtain ⟨⟨kx, hkx⟩, ⟨ky, hky⟩, hb1, hb2, hb3, hb4⟩ := hcell'
  have hx : p.1 = 2 * ((kx.toNat : Int)) + 1 := by omega
  have hy : p.2 = 2 * ((ky.toNat : Int)) + 1 := by omega
  have hcol : isCell w h (1, p.2) := by
    simp only [isCell]
    exact ⟨⟨0, by norm_num⟩, ⟨ky, hky⟩, by norm_num, by omega, hb3, hb4⟩
  have h1 := hvert ky.toNat p.2 hy hcol
  have h2 := hhoriz kx.toNat p.1 p.2 hx
    (by rw [Prod.mk.eta]; exact hcell)
  have h3 : CellReach w h (1, 1) (p.1, p.2) := h1.trans h2
  rwa [Prod.mk.eta] at h3

theorem getD_map_range {α : Type _} (n : Nat) (f : Nat → α) (d : α)
    (i : Nat) (hi : i < n) : ((List.range n).map f).getD i d = f i := by
  rw [List.getD_eq_getElem?_getD, List.getElem?_map, List.getElem?_range hi]
  rfl

/-- A carved cell-step path yields a path of adjacent path cells on the
grid: each link traverses its carved midpoint. -/
theorem linkReach_pathConn (m : Maze) :
    ∀ p q, LinkReach m p q → PathConn m p q := by
  intro p q hpq
  induction hpq with
  | refl => exact Relation.ReflTransGen.refl
  | tail hab hbc ih =>
    rename_i b q2
    obtain ⟨⟨d, hd, hq⟩, hqpath, hmid⟩ := hbc
    have hcases := dirs_cases d hd
    subst hq
    refine ih.trans (Relation.ReflTransGen.tail
      (Relation.ReflTransGen.single ⟨?_, hmid⟩) ⟨?_, hqpath⟩)
    · rcases hcases with rfl | rfl | rfl | rfl <;>
        · simp only [adjacent, Prod.mk.injEq]
          omega
    · rcases hcases with rfl | rfl | rfl | rfl <;>
        · simp only [adjacent, Prod.mk.injEq]
          omega

/-- The loop invariant holds on entry to the `while` loop: all-wall maze
with only the start carved, stack `[(1, 1)]`. -/
theorem loopInv_init (w h : Int) (hw5 : 5 ≤ w) (hh5 : 5 ≤ h) :
    LoopInv w h (setPath (fun _ _ => 1) 1 1) [(1, 1)] := by
  constructor
  · exact bool_setPath _ _ _ fun _ _ => Or.inr rfl
  · exact setPath_self _ _ _
  · intro p hp
    simp only [List.mem_singleton] at hp
    subst hp
    exact ⟨⟨⟨0, by norm_num⟩, ⟨0, by norm_num⟩, by norm_num, by omega,
      by norm_num, by omega⟩, setPath_self _ _ _⟩
  · intro p hpcell hppath hpnot q hqcell hqadj
    rcases setPath_cases _ _ _ _ _ hppath with ⟨he2, he1⟩ | hm0
    · have hp : p = ((1 : Int), (1 : Int)) := Prod.ext he1 he2
      exact absurd (by rw [hp]; exact List.mem_singleton.mpr rfl) hpnot
    · exact absurd hm0 (by norm_num)
  · intro p hpcell hppath
    rcases setPath_cases _ _ _ _ _ hppath with ⟨he2, he1⟩ | hm0
    · have hp : p = (1, 1) := Prod.ext he1 he2
      subst hp
      exact Relation.ReflTransGen.refl
    · exact absurd hm0 (by norm_num)

/-- C1: for every pair of odd dimensions `width, height ≥ 5` and every
behavior of the direction shuffle, `generateMaze` returns a
`height`-by-`width` grid in which the start `(1, 1)` and the exit
`(width-2, height-2)` are both path, and a path of adjacent path cells
connects the start to the exit. -/
theorem generateMaze_solvable (w h : Int) (perm : Nat → List (Int × Int))
    (hw : Odd w) (hh : Odd h) (hw5 : 5 ≤ w) (hh5 : 5 ≤ h)
    (hperm : ∀ n, (perm n).Perm dirs) :
    (generateMaze w h perm).length = h.toNat ∧
    (∀ row ∈ generateMaze w h perm, row.length = w.toNat) ∧
    (∀ y x : Nat, y < h.toNat → x < w.toNat →
      ((generateMaze w h perm).getD y []).getD x 1 =
        mazeFun w h perm (y : Int) (x : Int)) ∧
    isPath (mazeFun w h perm) (1, 1) ∧
    isPath (mazeFun w h perm) (w - 2, h - 2) ∧
    PathConn (mazeFun w h perm) (1, 1) (w - 2, h - 2) := by
  have hM := mazeLoop_inv w h perm hperm
    (2 * wallCount w h (setPath (fun _ _ => 1) 1 1) + 1)
    (setPath (fun _ _ => 1) 1 1) [(1, 1)] 0 (by simp)
    (loopInv_init w h hw5 hh5)
  set M := mazeLoop w h perm (setPath (fun _ _ => 1) 1 1) [(1, 1)] 0
    with hMdef
  have hexitcell : isCell w h (w - 2, h - 2) := by
    simp only [isCell]
    obtain ⟨kw, hkw⟩ := hw
    obtain ⟨kh, hkh⟩ := hh
    exact ⟨⟨kw - 1, by omega⟩, ⟨kh - 1, by omega⟩, by omega, by omega,
      by omega, by omega⟩
  have hexitM : isPath M (w - 2, h - 2) :=
    (closed_all_carved w h M hM hw5 hh5 _
      (cellReach_all w h hw5 hh5 _ hexitcell)).1
  have hlink : LinkReach M (1, 1) (w - 2, h - 2) :=
    hM.reach _ hexitcell hexitM
  have hle : carvedLE M (mazeFun w h perm) := by
    unfold mazeFun
    rw [← hMdef]
    exact carvedLE_setPath _ _ _
  refine ⟨by simp only [generateMaze, List.length_map, List.length_range],
    ?_, ?_, hle _ _ hM.start, hle _ _ hexitM,
    linkReach_pathConn _ _ _ (linkReach_mono hle hlink)⟩
  · intro row hrow
    simp only [generateMaze, List.mem_map] at hrow
    obtain ⟨y, -, rfl⟩ := hrow
    simp only [List.length_map, List.length_range]
  · intro y x hy hx
    unfold generateMaze
    rw [getD_map_range _ _ _ _ hy, getD_map_range _ _ _ _ hx]

/-- C1 witness: at the smallest admissible size, 5×5, with the identity
shuffle oracle, the hypotheses hold and the theorem applies. -/
theorem generateMaze_solvable_witness :
    Odd (5 : Int) ∧ (5 : Int) ≤ 5 ∧
    (∀ n : Nat, ((fun _ : Nat => dirs) n).Perm dirs) ∧
    (isPath (mazeFun 5 5 fun _ => dirs) (1, 1) ∧
      isPath (mazeFun 5 5 fun _ => dirs) (5 - 2, 5 - 2) ∧
      PathConn (mazeFun 5 5 fun _ => dirs) (1, 1) (5 - 2, 5 - 2)) :=
  ⟨⟨2, by norm_num⟩, by norm_num, fun _ => List.Perm.refl _,
    (generateMaze_solvable 5 5 (fun _ => dirs) ⟨2, by norm_num⟩
      ⟨2, by norm_num⟩ (by norm_num) (by norm_num)
      fun _ => List.Perm.refl _).2.2.2⟩

end MazeGame
